import Mathlib

/-!
Verification of the state-merkle pruning engine
(`storage/aptosdb/src/pruner/state_store/mod.rs` and
`state_merkle_metadata_pruner.rs`).

The embedding models the sharding-disabled configuration, in which
`StateMerklePruner.shard_pruners` is the empty vector and `prune_shards`
is a no-op over it; all deletion work is performed by the metadata pruner.

Machine integers: `Version = u64` and `batch_size : usize` are modelled as
`Nat`.  The code performs no arithmetic on versions other than `max` and
comparisons, so no overflow is possible and the `Nat` model is exact.
`usize::max_value()` is the literal `2^64 - 1`.

Storage errors are not modelled: every claim under consideration concerns
the `Ok` paths, and the embedded operations are total functions.
-/

/-- `usize::max_value()` on a 64-bit platform. -/
def usizeMax : Nat := 2 ^ 64 - 1

/-- `StaleNodeIndex { stale_since_version, node_key }` from
`aptos_jellyfish_merkle`.  `NodeKey` is an opaque identifier here, modelled
as a `Nat`; the pruner never inspects it beyond equality and ordering. -/
structure StaleNodeIndex where
  stale_since_version : Nat
  node_key : Nat
deriving DecidableEq, Repr

/-- The durable contents of the metadata DB that the pruner touches:
the stale-index column family (an ordered stream, modelled as the list of
still-present indices in iteration order), the jellyfish-merkle-node column
family (the set of node keys still present), and the `DbMetadataSchema`
progress entry under `S::tag(None)` (`none` before the first write, as
`get_progress` returns `Option`). -/
structure MetaDB where
  indices : List StaleNodeIndex
  nodes : List Nat
  metaProgress : Option Nat
deriving DecidableEq, Repr

/-- `StateMerkleMetadataPruner::progress()`:
`get_progress(&self.metadata_db, &S::tag(None))?.unwrap_or(0)`. -/
def MetaDB.progressValue (db : MetaDB) : Nat :=
  db.metaProgress.getD 0

/-- The fetch loop inside `get_stale_node_indices`:
`for _ in 0..=batch_size { ... }` with the over-fetch-by-1 already included
in `fuel` by the caller.  `stream` is the iterator's remaining entries after
the seek.  Returns the pushed indices together with `next_version`, which the
loop keeps equal to the `stale_since_version` of the last entry pulled from
the iterator (pushed or not), `none` when no entry was ever pulled. -/
def fetchLoop (fuel : Nat) (stream : List StaleNodeIndex) (ceiling : Nat) :
    List StaleNodeIndex × Option Nat :=
  match stream with
  | [] => ([], none)
  | idx :: rest =>
    if fuel = 0 then ([], none)
    else if idx.stale_since_version ≤ ceiling then
      let r := fetchLoop (fuel - 1) rest ceiling
      (idx :: r.1, some (r.2.getD idx.stale_since_version))
    else ([], some idx.stale_since_version)

/-- `StateMerklePruner::get_stale_node_indices(db, start_version,
target_version, batch_size)`.  The iterator seeks to
`StaleNodeIndex { stale_since_version: start_version, node_key: empty }`;
since the empty node key is minimal at a version, the seek lands on the
first entry with `stale_since_version ≥ start_version`.  After the loop,
`if indices.len() > batch_size { indices.pop(); }`. -/
def get_stale_node_indices (stream : List StaleNodeIndex)
    (start_version target_version batch_size : Nat) :
    List StaleNodeIndex × Option Nat :=
  let it := stream.dropWhile (fun i => decide (i.stale_since_version < start_version))
  let r := fetchLoop (batch_size + 1) it target_version
  (if r.1.length > batch_size then r.1.dropLast else r.1, r.2)

/-- In-memory state of `StateMerkleMetadataPruner`: the metadata DB handle's
contents plus the `next_version` atomic (initialized to 0 in `new`). -/
structure MetaState where
  db : MetaDB
  next_version : Nat
deriving DecidableEq, Repr

/-- `StateMerkleMetadataPruner::new(metadata_db)`. -/
def MetaState.new (db : MetaDB) : MetaState :=
  { db := db, next_version := 0 }

/-- `StateMerkleMetadataPruner::maybe_prune_single_version(current_progress,
target_version)`.  Computes the round boundary
`max(next_version, current_progress)`; if it exceeds `target_version`,
returns `None` touching nothing.  Otherwise scans the stale-index stream from
`current_progress` bounded by the round boundary with batch size
`usize::max_value()`, and commits one atomic `SchemaBatch` that deletes each
collected index's node from the node column family, deletes the index
itself, and puts the progress entry `= round boundary`; then stores
`next_version.unwrap_or(round boundary)` into the cache and returns
`Some(round boundary)`. -/
def maybe_prune_single_version (s : MetaState)
    (current_progress target_version : Nat) : Option Nat × MetaState :=
  let next_version := s.next_version
  let target_version_for_this_round := max next_version current_progress
  if target_version_for_this_round > target_version then (none, s)
  else
    let r := get_stale_node_indices s.db.indices current_progress
      target_version_for_this_round usizeMax
    let indices := r.1
    let db' : MetaDB :=
      { indices := s.db.indices.filter (fun i => decide (i ∉ indices)),
        nodes := s.db.nodes.filter
          (fun k => decide (∀ i ∈ indices, i.node_key ≠ k)),
        metaProgress := some target_version_for_this_round }
    (some target_version_for_this_round,
      { db := db', next_version := r.2.getD target_version_for_this_round })

/-- `StateMerklePruner` with sharding disabled: the two atomics
`target_version` and `progress`, plus the metadata pruner.
(`shard_pruners` is the empty vector in this configuration.) -/
structure Pruner where
  target_version : Nat
  progress : Nat
  meta : MetaState
deriving DecidableEq, Repr

/-- `StateMerklePruner::new(state_merkle_db)` with sharding disabled:
reads `metadata_progress = metadata_pruner.progress()` and initializes both
atomics to it. -/
def Pruner.new (db : MetaDB) : Pruner :=
  let metadata_pruner := MetaState.new db
  let metadata_progress := metadata_pruner.db.progressValue
  { target_version := metadata_progress,
    progress := metadata_progress,
    meta := metadata_pruner }

/-- `set_target_version(target_version)`: unconditional store. -/
def Pruner.set_target_version (p : Pruner) (v : Nat) : Pruner :=
  { p with target_version := v }

/-- The `while progress < target_version` loop of `prune`, with the local
`progress` variable and the `target_version` read once before the loop as
parameters.  `record_progress` stores into the `progress` atomic.  `fuel`
bounds the number of iterations; `none` means the loop did not finish
within `fuel` iterations (the Rust loop is unbounded). -/
def pruneLoop (fuel : Nat) (p : Pruner) (progress target_version : Nat) :
    Option Pruner :=
  match fuel with
  | 0 => none
  | fuel + 1 =>
    if progress < target_version then
      match maybe_prune_single_version p.meta progress target_version with
      | (some target_version_for_this_round, m') =>
        pruneLoop fuel
          { p with meta := m', progress := target_version_for_this_round }
          target_version_for_this_round target_version
      | (none, m') =>
        some { p with meta := m', progress := target_version }
    else some p

/-- `StateMerklePruner::prune(batch_size) -> Result<Version>` (with sharding
disabled `prune_shards` is a no-op, and `batch_size` only feeds the shard
pruners, so it does not appear).  Returns the target version read at the
start of the call together with the post state; `none` models a call that
never returns within `fuel` loop iterations. -/
def Pruner.prune (fuel : Nat) (p : Pruner) : Option (Nat × Pruner) :=
  (pruneLoop fuel p p.progress p.target_version).map
    (fun p2 => (p.target_version, p2))

/-! ### Lemmas about the lookahead scan -/

theorem fetchLoop_subset (fuel : Nat) (stream : List StaleNodeIndex)
    (ceiling : Nat) : ∀ i ∈ (fetchLoop fuel stream ceiling).1, i ∈ stream := by
  induction stream generalizing fuel with
  | nil => intro i hi; simp [fetchLoop] at hi
  | cons idx rest ih =>
    intro i hi
    rw [fetchLoop] at hi
    by_cases h0 : fuel = 0
    · simp [h0] at hi
    · rw [if_neg h0] at hi
      by_cases hle : idx.stale_since_version ≤ ceiling
      · rw [if_pos hle] at hi
        rcases List.mem_cons.mp hi with h | h
        · exact h ▸ List.mem_cons_self _ _
        · exact List.mem_cons_of_mem _ (ih (fuel - 1) i h)
      · simp [if_neg hle] at hi

theorem fetchLoop_le_ceiling (fuel : Nat) (stream : List StaleNodeIndex)
    (ceiling : Nat) :
    ∀ i ∈ (fetchLoop fuel stream ceiling).1, i.stale_since_version ≤ ceiling := by
  induction stream generalizing fuel with
  | nil => intro i hi; simp [fetchLoop] at hi
  | cons idx rest ih =>
    intro i hi
    rw [fetchLoop] at hi
    by_cases h0 : fuel = 0
    · simp [h0] at hi
    · rw [if_neg h0] at hi
      by_cases hle : idx.stale_since_version ≤ ceiling
      · rw [if_pos hle] at hi
        rcases List.mem_cons.mp hi with h | h
        · exact h ▸ hle
        · exact ih (fuel - 1) i h
      · simp [if_neg hle] at hi

theorem get_stale_node_indices_subset (stream : List StaleNodeIndex)
    (start_version target_version batch_size : Nat) :
    ∀ i ∈ (get_stale_node_indices stream start_version target_version
      batch_size).1, i ∈ stream := by
  intro i hi
  rw [get_stale_node_indices] at hi
  have hmem : i ∈ (fetchLoop (batch_size + 1)
      (stream.dropWhile (fun j => decide (j.stale_since_version < start_version)))
      target_version).1 := by
    by_cases h : (fetchLoop (batch_size + 1)
        (stream.dropWhile (fun j => decide (j.stale_since_version < start_version)))
        target_version).1.length > batch_size
    · rw [if_pos h] at hi; exact (List.dropLast_sublist _).subset hi
    · rwa [if_neg h] at hi
  exact (List.dropWhile_sublist _).subset (fetchLoop_subset _ _ _ i hmem)

theorem get_stale_node_indices_le_ceiling (stream : List StaleNodeIndex)
    (start_version target_version batch_size : Nat) :
    ∀ i ∈ (get_stale_node_indices stream start_version target_version
      batch_size).1, i.stale_since_version ≤ target_version := by
  intro i hi
  rw [get_stale_node_indices] at hi
  have hmem : i ∈ (fetchLoop (batch_size + 1)
      (stream.dropWhile (fun j => decide (j.stale_since_version < start_version)))
      target_version).1 := by
    by_cases h : (fetchLoop (batch_size + 1)
        (stream.dropWhile (fun j => decide (j.stale_since_version < start_version)))
        target_version).1.length > batch_size
    · rw [if_pos h] at hi; exact (List.dropLast_sublist _).subset hi
    · rwa [if_neg h] at hi
  exact fetchLoop_le_ceiling _ _ _ i hmem

theorem dropWhile_eq_self_of_forall {p : StaleNodeIndex → Bool}
    {l : List StaleNodeIndex} (h : ∀ i ∈ l, p i = false) :
    l.dropWhile p = l := by
  cases l with
  | nil => rfl
  | cons a t =>
    rw [List.dropWhile_cons, h a (List.mem_cons_self a t)]
    simp

/-- When every entry of the stream qualifies (its version is at most the
ceiling), the fetch loop takes exactly the first `fuel` entries, and the
reported `next_version` is the version of the last entry taken. -/
theorem fetchLoop_all_le (fuel : Nat) (stream : List StaleNodeIndex)
    (ceiling : Nat) (h : ∀ i ∈ stream, i.stale_since_version ≤ ceiling) :
    fetchLoop fuel stream ceiling =
      (stream.take fuel,
       (stream.take fuel).getLast?.map (fun i => i.stale_since_version)) := by
  induction stream generalizing fuel with
  | nil => simp [fetchLoop]
  | cons idx rest ih =>
    rw [fetchLoop]
    by_cases h0 : fuel = 0
    · simp [h0]
    · rw [if_neg h0,
        if_pos (h idx (List.mem_cons_self idx rest))]
      obtain ⟨f, rfl⟩ := Nat.exists_eq_succ_of_ne_zero h0
      have hrest : ∀ i ∈ rest, i.stale_since_version ≤ ceiling :=
        fun i hi => h i (List.mem_cons_of_mem idx hi)
      rw [Nat.succ_sub_one, ih f hrest]
      simp only [List.take_succ_cons]
      cases htake : rest.take f with
      | nil => simp
      | cons b t =>
        cases hl : (b :: t).getLast? with
        | none => simp at hl
        | some x => simp [hl]

/-! ### One loop iteration of `prune`, and reachable states

One Rust `prune` call reads `target_version` once and then runs the
`while progress < target_version` loop; each iteration either commits one
round (`Some` branch) or fast-forwards the progress atomic to the target
(`None` branch).  `applyRound` is that loop body.  `Step` is either such an
iteration — allowing an arbitrary loop target satisfying the loop guard,
which covers targets read before later `set_target_version` stores — or a
`set_target_version` store.  Before each iteration the local `progress`
variable equals the `progress` atomic, so the body is applied at
`p.progress`. -/

def applyRound (p : Pruner) (tv : Nat) : Pruner :=
  match maybe_prune_single_version p.meta p.progress tv with
  | (some target_version_for_this_round, m') =>
    { p with meta := m', progress := target_version_for_this_round }
  | (none, m') => { p with meta := m', progress := tv }

inductive Step : Pruner → Pruner → Prop
  | set_target (p : Pruner) (v : Nat) : Step p (p.set_target_version v)
  | round (p : Pruner) (tv : Nat) (h : p.progress < tv) : Step p (applyRound p tv)

inductive Reach : Pruner → Pruner → Prop
  | refl (p : Pruner) : Reach p p
  | tail {p q r : Pruner} : Reach p q → Step q r → Reach p r

theorem maybe_prune_single_version_gt (s : MetaState) (cp tv : Nat)
    (h : max s.next_version cp > tv) :
    maybe_prune_single_version s cp tv = (none, s) := by
  rw [maybe_prune_single_version]
  simp only [if_pos h]

theorem maybe_prune_single_version_le (s : MetaState) (cp tv : Nat)
    (h : ¬ max s.next_version cp > tv) :
    maybe_prune_single_version s cp tv =
      (some (max s.next_version cp),
       { db :=
           { indices := s.db.indices.filter (fun i => decide (i ∉
               (get_stale_node_indices s.db.indices cp
                 (max s.next_version cp) usizeMax).1)),
             nodes := s.db.nodes.filter (fun k => decide (∀ i ∈
               (get_stale_node_indices s.db.indices cp
                 (max s.next_version cp) usizeMax).1, i.node_key ≠ k)),
             metaProgress := some (max s.next_version cp) },
         next_version :=
           (get_stale_node_indices s.db.indices cp
             (max s.next_version cp) usizeMax).2.getD
             (max s.next_version cp) }) := by
  rw [maybe_prune_single_version]
  simp only [if_neg h]

/-! ### The crash-safety invariant -/

/-- Spec §8 "No premature deletion", relative to the initial DB contents
`db0`: a node is never absent from storage while its stale index's
`stale_since_version` exceeds the durably recorded progress. -/
def noPrematureDeletion (db0 : MetaDB) (p : Pruner) : Prop :=
  ∀ i ∈ db0.indices, i.node_key ∉ p.meta.db.nodes →
    i.stale_since_version ≤ p.meta.db.progressValue

/-- Spec §8 "Atomic pairing", relative to the initial DB contents `db0`:
for every stale index, either both it and its node are gone, or both are
still present. -/
def atomicPairing (db0 : MetaDB) (p : Pruner) : Prop :=
  ∀ i ∈ db0.indices, (i ∈ p.meta.db.indices ↔ i.node_key ∈ p.meta.db.nodes)

/-- The node keys named by the stale indices of `db0` are pairwise distinct
(each node retires exactly once, so each node key appears in at most one
stale index). -/
def keysInjective (db0 : MetaDB) : Prop :=
  ∀ i ∈ db0.indices, ∀ j ∈ db0.indices, i.node_key = j.node_key → i = j

/-- Every stale index of `db0` initially has its node present. -/
def initiallyPaired (db0 : MetaDB) : Prop :=
  ∀ i ∈ db0.indices, i.node_key ∈ db0.nodes

/-- The inductive invariant tying a reachable pruner state to the initial
DB contents: the progress atomic dominates the durable progress record, the
surviving indices all come from `db0`, pairing holds, and every deleted
index was deleted at or below the durable progress record. -/
def PrunerInv (db0 : MetaDB) (p : Pruner) : Prop :=
  p.meta.db.progressValue ≤ p.progress ∧
  (∀ i ∈ p.meta.db.indices, i ∈ db0.indices) ∧
  atomicPairing db0 p ∧
  (∀ i ∈ db0.indices, i ∉ p.meta.db.indices →
    i.stale_since_version ≤ p.meta.db.progressValue)

theorem prunerInv_init (db0 : MetaDB) (hp : initiallyPaired db0) :
    PrunerInv db0 (Pruner.new db0) := by
  refine ⟨le_refl _, fun i hi => hi, fun i hi => ?_, fun i hi hni => absurd hi hni⟩
  exact ⟨fun _ => hp i hi, fun _ => hi⟩

theorem prunerInv_step (db0 : MetaDB) (hinj : keysInjective db0)
    {q r : Pruner} (hs : Step q r) (hq : PrunerInv db0 q) :
    PrunerInv db0 r := by
  obtain ⟨hdur, hsub, hpair, hdel⟩ := hq
  cases hs with
  | set_target v => exact ⟨hdur, hsub, hpair, hdel⟩
  | round tv hlt =>
    rw [applyRound]
    by_cases hgt : max q.meta.next_version q.progress > tv
    · rw [maybe_prune_single_version_gt q.meta q.progress tv hgt]
      exact ⟨le_of_lt (lt_of_le_of_lt hdur hlt), hsub, hpair, hdel⟩
    · rw [maybe_prune_single_version_le q.meta q.progress tv hgt]
      set t := max q.meta.next_version q.progress with ht
      set C := (get_stale_node_indices q.meta.db.indices q.progress t
        usizeMax).1 with hC
      have hCsub : ∀ i ∈ C, i ∈ q.meta.db.indices :=
        get_stale_node_indices_subset _ _ _ _
      have hCle : ∀ i ∈ C, i.stale_since_version ≤ t :=
        get_stale_node_indices_le_ceiling _ _ _ _
      have hprog : q.meta.db.progressValue ≤ t :=
        le_trans hdur (le_max_right _ _)
      constructor
      · simp [MetaDB.progressValue]
      constructor
      · intro i hi
        simp only [List.mem_filter] at hi
        exact hsub i hi.1
      constructor
      · intro i hi0
        have hiff := hpair i hi0
        simp only [List.mem_filter, decide_eq_true_eq]
        constructor
        · rintro ⟨hin, hnotC⟩
          refine ⟨hiff.mp hin, fun j hj => ?_⟩
          intro hkey
          have hj0 : j ∈ db0.indices := hsub j (hCsub j hj)
          have : j = i := hinj j hj0 i hi0 hkey
          exact hnotC (this ▸ hj)
        · rintro ⟨hnode, hkeys⟩
          have hin : i ∈ q.meta.db.indices := hiff.mpr hnode
          refine ⟨hin, fun hiC => ?_⟩
          exact hkeys i hiC rfl
      · intro i hi0 hni
        simp only [List.mem_filter, decide_eq_true_eq, not_and, not_not] at hni
        by_cases hin : i ∈ q.meta.db.indices
        · have hiC : i ∈ C := hni hin
          simpa [MetaDB.progressValue] using hCle i hiC
        · have := hdel i hi0 hin
          simp only [MetaDB.progressValue, Option.getD_some]
          exact le_trans this hprog

theorem prunerInv_reach (db0 : MetaDB) (hinj : keysInjective db0)
    (hp : initiallyPaired db0) {q : Pruner}
    (h : Reach (Pruner.new db0) q) : PrunerInv db0 q := by
  induction h with
  | refl => exact prunerInv_init db0 hp
  | tail hr hs ih => exact prunerInv_step db0 hinj hs ih

/-! ### Claim theorems: the lookahead scan and the round computation -/

/-- C4: `maybe_prune_single_version(current_progress, overall_target)`
computes the candidate boundary as `max(cached next_known_version,
current_progress)`; whenever it returns `Ok`, the result is `None` exactly
when the candidate boundary exceeds `overall_target`, and otherwise it is
`Some(candidate boundary)`. -/
theorem maybe_prune_single_version_boundary (s : MetaState)
    (current_progress target_version : Nat) :
    (maybe_prune_single_version s current_progress target_version).1 =
      if max s.next_version current_progress > target_version then none
      else some (max s.next_version current_progress) := by
  by_cases h : max s.next_version current_progress > target_version
  · rw [maybe_prune_single_version_gt s current_progress target_version h,
      if_pos h]
  · rw [maybe_prune_single_version_le s current_progress target_version h,
      if_neg h]

/-- C5: for a stream of `N` stale indices with strictly increasing versions,
all with `stale_since_version ≤ ceiling` and at or after the seek point,
and `batch_size < N`, the lookahead scan returns exactly `batch_size`
entries and a cursor equal to the version of the `(batch_size+1)`-th entry:
the over-fetched entry is dropped from the returned batch but its version
is reported as the cursor for the next call. -/
theorem lookahead_overfetch (l : List StaleNodeIndex)
    (start_version ceiling batch_size : Nat)
    (_hsorted : l.Pairwise
      (fun a b => a.stale_since_version < b.stale_since_version))
    (hceil : ∀ i ∈ l, i.stale_since_version ≤ ceiling)
    (hstart : ∀ i ∈ l, start_version ≤ i.stale_since_version)
    (hN : batch_size < l.length) :
    get_stale_node_indices l start_version ceiling batch_size =
      (l.take batch_size,
       some ((l.get ⟨batch_size, hN⟩).stale_since_version)) := by
  rw [get_stale_node_indices]
  have hdrop :
      l.dropWhile (fun i => decide (i.stale_since_version < start_version))
        = l :=
    dropWhile_eq_self_of_forall
      (fun i hi => by simp [Nat.not_lt.mpr (hstart i hi)])
  simp only [hdrop, fetchLoop_all_le (batch_size + 1) l ceiling hceil]
  have hlen : (l.take (batch_size + 1)).length = batch_size + 1 := by
    rw [List.length_take]; omega
  rw [if_pos (by omega)]
  have hget : (l.take (batch_size + 1)).getLast? =
      some (l.get ⟨batch_size, hN⟩) := by
    rw [List.getLast?_eq_getElem?, hlen, Nat.add_sub_cancel,
      List.getElem?_take_of_lt (Nat.lt_succ_self batch_size),
      List.getElem?_eq_getElem hN]
    rfl
  rw [List.dropLast_eq_take, hlen, Nat.add_sub_cancel, List.take_take,
    min_eq_left (Nat.le_succ batch_size), hget]
  rfl

/-- C6: for a stream of `N` stale indices with strictly increasing versions,
all with `stale_since_version ≤ ceiling` and at or after the seek point,
and `batch_size ≥ N`, the lookahead scan returns all `N` entries and a
cursor equal to `None` (stream exhausted before any entry was seen) or the
exhausted-stream sentinel — the last version observed during the scan
(spec §4.1) — here `(l.getLast?).map stale_since_version`, which is `none`
exactly when `N = 0`. -/
theorem lookahead_exhausted (l : List StaleNodeIndex)
    (start_version ceiling batch_size : Nat)
    (_hsorted : l.Pairwise
      (fun a b => a.stale_since_version < b.stale_since_version))
    (hceil : ∀ i ∈ l, i.stale_since_version ≤ ceiling)
    (hstart : ∀ i ∈ l, start_version ≤ i.stale_since_version)
    (hN : l.length ≤ batch_size) :
    (get_stale_node_indices l start_version ceiling batch_size).1 = l ∧
    ((get_stale_node_indices l start_version ceiling batch_size).2 = none ∨
     (get_stale_node_indices l start_version ceiling batch_size).2 =
       (l.getLast?).map (fun i => i.stale_since_version)) := by
  have hdrop :
      l.dropWhile (fun i => decide (i.stale_since_version < start_version))
        = l :=
    dropWhile_eq_self_of_forall
      (fun i hi => by simp [Nat.not_lt.mpr (hstart i hi)])
  have htake : l.take (batch_size + 1) = l :=
    List.take_of_length_le (by omega)
  rw [get_stale_node_indices]
  simp only [hdrop, fetchLoop_all_le (batch_size + 1) l ceiling hceil, htake]
  rw [if_neg (by omega)]
  exact ⟨rfl, Or.inr trivial⟩

/-- C6 witness: three entries, batch size three. -/
theorem lookahead_exhausted_witness :
    (get_stale_node_indices
        [⟨1, 10⟩, ⟨2, 20⟩, ⟨3, 30⟩] 0 5 3).1 = [⟨1, 10⟩, ⟨2, 20⟩, ⟨3, 30⟩] ∧
    ((get_stale_node_indices
        [⟨1, 10⟩, ⟨2, 20⟩, ⟨3, 30⟩] 0 5 3).2 = none ∨
     (get_stale_node_indices
        [⟨1, 10⟩, ⟨2, 20⟩, ⟨3, 30⟩] 0 5 3).2 =
       (([⟨1, 10⟩, ⟨2, 20⟩, ⟨3, 30⟩] : List StaleNodeIndex).getLast?).map
         (fun i => i.stale_since_version)) :=
  lookahead_exhausted [⟨1, 10⟩, ⟨2, 20⟩, ⟨3, 30⟩] 0 5 3
    (by decide) (by decide) (by decide) (by decide)

/-- C5 witness: four entries, batch size two; the scan returns the first
two entries and the cursor is the version of the third. -/
theorem lookahead_overfetch_witness :
    get_stale_node_indices [⟨1, 10⟩, ⟨2, 20⟩, ⟨3, 30⟩, ⟨4, 40⟩] 0 5 2 =
      ([⟨1, 10⟩, ⟨2, 20⟩], some 3) := by
  have h := lookahead_overfetch [⟨1, 10⟩, ⟨2, 20⟩, ⟨3, 30⟩, ⟨4, 40⟩] 0 5 2
    (by decide) (by decide) (by decide) (by decide)
  simpa using h

/-! ### Claim theorems: invariants over reachable states -/

/-- C1: no tree node is ever deleted while its stale index's
`stale_since_version` exceeds the recorded progress — every node deleted by
`maybe_prune_single_version` was collected with `stale_since_version` at
most the round boundary, and the boundary is persisted as the new progress
in the same write batch, so in every reachable state every already-deleted
node's `stale_since_version` is at most the durable progress. -/
theorem no_premature_deletion (db0 : MetaDB) (q : Pruner)
    (hinj : keysInjective db0) (hp : initiallyPaired db0)
    (h : Reach (Pruner.new db0) q) : noPrematureDeletion db0 q := by
  obtain ⟨hdur, hsub, hpair, hdel⟩ := prunerInv_reach db0 hinj hp h
  intro i hi0 hnode
  exact hdel i hi0 (fun hin => hnode ((hpair i hi0).mp hin))

/-- C1 witness: one stale index at version 1 over a fresh DB, one committed
round with loop target 2. -/
theorem no_premature_deletion_witness :
    noPrematureDeletion ⟨[⟨1, 7⟩], [7], none⟩
      (applyRound (Pruner.new ⟨[⟨1, 7⟩], [7], none⟩) 2) :=
  no_premature_deletion ⟨[⟨1, 7⟩], [7], none⟩ _
    (by unfold keysInjective; decide) (by unfold initiallyPaired; decide)
    (Reach.tail (Reach.refl _) (Step.round _ 2 (by decide)))

/-- C2: each collected stale index and the tree node it points to are
deleted in one and the same atomic write batch, so after any committed
batch, for every stale index either both the index and its node are gone
or both are still present — never one without the other. -/
theorem atomic_pairing (db0 : MetaDB) (q : Pruner)
    (hinj : keysInjective db0) (hp : initiallyPaired db0)
    (h : Reach (Pruner.new db0) q) : atomicPairing db0 q :=
  (prunerInv_reach db0 hinj hp h).2.2.1

/-- C2 witness: two stale indices over a fresh DB, one committed round with
loop target 3. -/
theorem atomic_pairing_witness :
    atomicPairing ⟨[⟨1, 7⟩, ⟨2, 8⟩], [7, 8], none⟩
      (applyRound (Pruner.new ⟨[⟨1, 7⟩, ⟨2, 8⟩], [7, 8], none⟩) 3) :=
  atomic_pairing ⟨[⟨1, 7⟩, ⟨2, 8⟩], [7, 8], none⟩ _
    (by unfold keysInjective; decide) (by unfold initiallyPaired; decide)
    (Reach.tail (Reach.refl _) (Step.round _ 3 (by decide)))

theorem progress_le_of_step {q r : Pruner} (hs : Step q r) :
    q.progress ≤ r.progress := by
  cases hs with
  | set_target v => exact le_refl _
  | round tv hlt =>
    rw [applyRound]
    by_cases hgt : max q.meta.next_version q.progress > tv
    · rw [maybe_prune_single_version_gt _ _ _ hgt]
      exact le_of_lt hlt
    · rw [maybe_prune_single_version_le _ _ _ hgt]
      exact le_max_right _ _

/-- C7: for any sequence of `prune` and `set_target_version` calls, the
values returned by `progress()` are non-decreasing — every value stored by
`record_progress` during `prune` (each loop iteration stores one) is at
least every previously stored value. -/
theorem progress_monotone {p q : Pruner} (h : Reach p q) :
    p.progress ≤ q.progress := by
  induction h with
  | refl => exact le_refl _
  | tail hr hs ih => exact le_trans ih (progress_le_of_step hs)

/-- C7 witness: one committed round from a fresh DB with one stale index. -/
theorem progress_monotone_witness :
    (Pruner.new ⟨[⟨1, 5⟩], [5], none⟩).progress ≤
      (applyRound (Pruner.new ⟨[⟨1, 5⟩], [5], none⟩) 2).progress :=
  progress_monotone (Reach.tail (Reach.refl _) (Step.round _ 2 (by decide)))

/-! ### Claim theorems: the prune loop's exit paths -/

/-- C8: when `maybe_prune_single_version` returns `Ok(None)`, `prune`
records progress equal to the target version read at the start of the call
and exits its round loop; and every `prune` call that returns `Ok` returns
exactly that target version. -/
theorem prune_fast_forward :
    (∀ (fuel : Nat) (p : Pruner) (pr tv : Nat) (m' : MetaState),
      pr < tv → maybe_prune_single_version p.meta pr tv = (none, m') →
      pruneLoop (fuel + 1) p pr tv =
        some { p with meta := m', progress := tv }) ∧
    (∀ (fuel : Nat) (p : Pruner) (v : Nat) (q : Pruner),
      p.prune fuel = some (v, q) → v = p.target_version) := by
  constructor
  · intro fuel p pr tv m' hlt heq
    rw [pruneLoop, if_pos hlt, heq]
  · intro fuel p v q h
    rw [Pruner.prune] at h
    rcases Option.map_eq_some'.mp h with ⟨p2, _, hvq⟩
    exact ((Prod.ext_iff.mp hvq).1).symm

/-- C8 witness: the cached `next_version` (9) exceeds the target (5), so
the first round returns `None`, progress fast-forwards to 5, and the call
returns the target 5. -/
theorem prune_fast_forward_witness :
    pruneLoop 1 ⟨5, 0, ⟨⟨[], [], none⟩, 9⟩⟩ 0 5 =
      some ⟨5, 5, ⟨⟨[], [], none⟩, 9⟩⟩ ∧
    (5 : Nat) = (⟨5, 0, ⟨⟨[], [], none⟩, 9⟩⟩ : Pruner).target_version :=
  ⟨by
    have h := prune_fast_forward.1 0 ⟨5, 0, ⟨⟨[], [], none⟩, 9⟩⟩ 0 5
      ⟨⟨[], [], none⟩, 9⟩ (by decide) (by decide)
    simpa using h,
   prune_fast_forward.2 1 ⟨5, 0, ⟨⟨[], [], none⟩, 9⟩⟩ 5
     ⟨5, 5, ⟨⟨[], [], none⟩, 9⟩⟩ (by decide)⟩

/-- C9: `set_target_version` stores its argument unconditionally with no
validation; if the stored target is lower than the current progress `p`, a
subsequent `prune` call returns immediately (first loop-guard check fails)
without performing any deletion, without an error, and without changing
progress — `progress()` still returns `p` afterwards. -/
theorem set_target_version_permissive :
    (∀ (p : Pruner) (v : Nat), (p.set_target_version v).target_version = v) ∧
    (∀ (p : Pruner) (v fuel : Nat), v < p.progress →
      (p.set_target_version v).progress = p.progress ∧
      (p.set_target_version v).prune (fuel + 1) =
        some (v, p.set_target_version v)) := by
  constructor
  · intro p v; rfl
  · intro p v fuel hv
    refine ⟨rfl, ?_⟩
    rw [Pruner.prune, pruneLoop,
      if_neg (show ¬ (p.set_target_version v).progress <
        (p.set_target_version v).target_version from Nat.not_lt.mpr
        (le_of_lt hv))]
    rfl

/-- C9 witness: target 1 below progress 3. -/
theorem set_target_version_permissive_witness :
    (Pruner.set_target_version ⟨3, 3, ⟨⟨[], [], some 3⟩, 0⟩⟩ 1).progress = 3 ∧
    (Pruner.set_target_version ⟨3, 3, ⟨⟨[], [], some 3⟩, 0⟩⟩ 1).prune 1 =
      some (1, Pruner.set_target_version ⟨3, 3, ⟨⟨[], [], some 3⟩, 0⟩⟩ 1) :=
  set_target_version_permissive.2 ⟨3, 3, ⟨⟨[], [], some 3⟩, 0⟩⟩ 1 0 (by decide)

/-- C10: immediately after construction via `StateMerklePruner::new`, both
`progress()` and `target_version()` return the persisted metadata progress
value read at startup (so they are equal), and a `prune` call made before
any `set_target_version` call performs no round and changes no state. -/
theorem new_pruner_idle (db : MetaDB) (fuel : Nat) :
    (Pruner.new db).progress = db.progressValue ∧
    (Pruner.new db).target_version = db.progressValue ∧
    (Pruner.new db).prune (fuel + 1) =
      some (db.progressValue, Pruner.new db) := by
  refine ⟨rfl, rfl, ?_⟩
  rw [Pruner.prune, pruneLoop,
    if_neg (show ¬ (Pruner.new db).progress < (Pruner.new db).target_version
      from lt_irrefl db.progressValue)]
  rfl

/-! ### Claim C3: convergence fails — `prune` livelocks once the
stale-index stream is exhausted strictly below the target.

With a single stale index at version 1, a fresh DB and target 2 (a finite
set of stale indices, all with `stale_since_version ≤ 2`, and initial
progress `0 < 2`), the first two loop iterations delete the index and its
node and advance progress to 1; from then on the stream is exhausted, the
cached `next_version` equals the progress, so the round boundary
`max(next_version, progress) = 1 ≤ 2` and `maybe_prune_single_version`
returns `Some(1)` forever, committing an empty batch each time.  The
`while progress < target_version` loop never exits: `prune` does not
terminate and `progress` never reaches the target. -/

theorem livelock_spin (fuel : Nat) :
    pruneLoop fuel ⟨2, 1, ⟨⟨[], [], some 1⟩, 1⟩⟩ 1 2 = none := by
  induction fuel with
  | zero => rfl
  | succ n ih =>
    rw [pruneLoop, if_pos (by norm_num),
      show maybe_prune_single_version ⟨⟨[], [], some 1⟩, 1⟩ 1 2 =
        (some 1, ⟨⟨[], [], some 1⟩, 1⟩) by decide]
    exact ih

theorem livelock_iter1 (fuel : Nat) :
    pruneLoop fuel ⟨2, 0, ⟨⟨[⟨1, 7⟩], [7], some 0⟩, 1⟩⟩ 0 2 = none := by
  cases fuel with
  | zero => rfl
  | succ n =>
    rw [pruneLoop, if_pos (by norm_num),
      show maybe_prune_single_version ⟨⟨[⟨1, 7⟩], [7], some 0⟩, 1⟩ 0 2 =
        (some 1, ⟨⟨[], [], some 1⟩, 1⟩) by decide]
    exact livelock_spin n

theorem livelock_iter0 (fuel : Nat) :
    pruneLoop fuel ⟨2, 0, ⟨⟨[⟨1, 7⟩], [7], none⟩, 0⟩⟩ 0 2 = none := by
  cases fuel with
  | zero => rfl
  | succ n =>
    rw [pruneLoop, if_pos (by norm_num),
      show maybe_prune_single_version ⟨⟨[⟨1, 7⟩], [7], none⟩, 0⟩ 0 2 =
        (some 0, ⟨⟨[⟨1, 7⟩], [7], some 0⟩, 1⟩) by decide]
    exact livelock_iter1 n

/-- C3 (refuting the claimed convergence): with the finite stale-index set
`{(1, node 7)}` (all versions ≤ target 2) over a fresh DB and
`set_target_version 2`, the very first `prune` call never returns — the
round loop runs forever, for every iteration bound `fuel`.  Repeated calls
therefore never make `progress()` equal the target. -/
theorem prune_livelock (fuel : Nat) :
    ((Pruner.new ⟨[⟨1, 7⟩], [7], none⟩).set_target_version 2).prune fuel
      = none := by
  show (pruneLoop fuel ⟨2, 0, ⟨⟨[⟨1, 7⟩], [7], none⟩, 0⟩⟩ 0 2).map
    (fun p2 => ((2 : Nat), p2)) = none
  rw [livelock_iter0 fuel]
  rfl
